import Mathlib

/-!
Verification development for the inline fill-in-the-blank exercise engine
(`useBlanks.tsx` and `InlineBlanks.tsx`).

Text is modelled as `String` (values stored in state) and `List Char`
(character-level processing).  JavaScript semantics are embedded faithfully:
`split(/(\[.*?\])/g)` becomes `jsSplit`, `split('|')` becomes `splitOnPipe`,
`split('\n')` becomes `splitLines`, `trim` / `toLowerCase` become `jsTrim` /
`jsLower` (ASCII case folding — all answers in play are ASCII), default
`Array.sort` on strings becomes `sortStrs` (lexicographic by code point),
`new Set(...)` dedup becomes `jsSetDedup` (first occurrence kept).
-/

namespace Blanks

/-- Character class of the JavaScript `\s` regex class (whitespace, used by
`trim`, by `^\s*` in the separator-row regex, and by the indent computation). -/
def jsWhitespace (c : Char) : Bool :=
  c == ' ' || c == '\t' || c == '\n' || c == '\r' || c == '\x0b' || c == '\x0c' ||
  c == '\u00A0' || c == '\u1680' || (0x2000 ≤ c.toNat && c.toNat ≤ 0x200A) ||
  c == '\u2028' || c == '\u2029' || c == '\u202F' || c == '\u205F' ||
  c == '\u3000' || c == '\uFEFF'

/-- Strip leading and trailing `\s` characters, as JavaScript `String.trim`. -/
def trimChars (cs : List Char) : List Char :=
  ((cs.dropWhile jsWhitespace).reverse.dropWhile jsWhitespace).reverse

/-- JavaScript `value.trim()`. -/
def jsTrim (s : String) : String := String.mk (trimChars s.data)

/-- JavaScript `value.toLowerCase()` restricted to ASCII case folding
(`Char.toLower` lowers exactly `A`–`Z`; every answer in the repository and in
the claims is ASCII). -/
def jsLower (s : String) : String := String.mk (s.data.map Char.toLower)

/-- Normalisation applied to a typed value before comparison with the answer:
`value.trim().toLowerCase()`. -/
def normVal (s : String) : String := jsLower (jsTrim s)

/-- JavaScript `text.split('\n')` (always returns at least one line). -/
def splitLines : List Char → List (List Char)
  | [] => [[]]
  | c :: rest =>
    match splitLines rest with
    | [] => [[c]]
    | l :: ls => if c = '\n' then [] :: l :: ls else (c :: l) :: ls

/-- JavaScript `lines.join('\n')`. -/
def joinLines : List (List Char) → List Char
  | [] => []
  | [l] => l
  | l :: ls => l ++ '\n' :: joinLines ls

/-- Character class `[\s\-:|]` of the separator-row regex. -/
def sepCoreChar (c : Char) : Bool :=
  jsWhitespace c || c == '-' || c == ':' || c == '|'

/-- Matcher for the separator-row regex `/^\s*\|[\s\-:|]+\|\s*$/`: after
stripping surrounding whitespace the line must be `|`, then one or more
characters of `[\s\-:|]`, then `|`. -/
def isSeparatorLine (l : List Char) : Bool :=
  match trimChars l with
  | [] => false
  | c :: rest =>
    c == '|' && decide (2 ≤ rest.length) && (rest.getLast? == some '|') &&
      rest.dropLast.all sepCoreChar

/-- Length of the leading-whitespace run of a line
(`line.match(/^\s*/)?.[0].length || 0`). -/
def leadingWsLen (l : List Char) : Nat := (l.takeWhile jsWhitespace).length

/-- Minimum indent across non-blank lines; `none` plays the role of the
`Infinity` initial accumulator in the source's `reduce`. -/
def minIndentOf (lines : List (List Char)) : Option Nat :=
  lines.foldl
    (fun acc l =>
      if (trimChars l).isEmpty then acc
      else
        match acc with
        | none => some (leadingWsLen l)
        | some m => some (min m (leadingWsLen l)))
    none

/-- Embedding of the `useMemo` in `InlineBlanks` that produces
`{ rawText, isTable }`: table detection (`hasPipes && hasSeparator`) on the
lines of the flattened text, then dedenting by the minimum indent when the
text is a table or multi-line. -/
def computeRawTable (t : List Char) : List Char × Bool :=
  let lines := splitLines t
  let hasPipes := lines.any (fun l => l.contains '|')
  let hasSep := lines.any isSeparatorLine
  let tableDetected := hasPipes && hasSep
  if tableDetected || t.contains '\n' then
    match minIndentOf lines with
    | some m =>
      if 0 < m then
        (joinLines (lines.map (fun l => if m ≤ l.length then l.drop m else l)),
         tableDetected)
      else (t, tableDetected)
    | none => (t, tableDetected)
  else (t, false)

/-- The `isTable` flag computed by `InlineBlanks`. -/
def isTableOf (t : List Char) : Bool := (computeRawTable t).2

/-- Scan for the closing `]` of a bracket token: succeeds with the interior
and the remaining characters, fails at end of input or at a line terminator
(which the regex `.` cannot match). -/
def findClose : List Char → Option (List Char × List Char)
  | [] => none
  | c :: rest =>
    if c = ']' then some ([], rest)
    else if c = '\n' ∨ c = '\r' ∨ c = '\u2028' ∨ c = '\u2029' then none
    else
      match findClose rest with
      | none => none
      | some (m, r) => some (c :: m, r)

/-- Worker for `jsSplit`.  The fuel argument only serves structural
termination; each step consumes at least one character, so `cs.length` fuel
is always enough and the fuel case is never reached when called via
`jsSplit`. -/
def jsSplitF : Nat → List Char → List Char → List (List Char)
  | 0, acc, _ => [acc.reverse]
  | _ + 1, acc, [] => [acc.reverse]
  | fuel + 1, acc, c :: rest =>
    if c = '[' then
      match findClose rest with
      | some (m, r) => acc.reverse :: ('[' :: (m ++ [']'])) :: jsSplitF fuel [] r
      | none => jsSplitF fuel (c :: acc) rest
    else jsSplitF fuel (c :: acc) rest

/-- JavaScript `text.split(/(\[.*?\])/g)`: literal segments alternating with
the captured bracket tokens (a token is a `[`, then the shortest run of
non-line-terminator characters, then `]`). -/
def jsSplit (cs : List Char) : List (List Char) := jsSplitF cs.length [] cs

/-- The filter `p.startsWith('[') && p.endsWith(']')` applied to split
parts. -/
def isBracketToken (p : List Char) : Bool :=
  p.head? == some '[' && p.getLast? == some ']'

/-- JavaScript `content.split('|')` (always returns at least one segment). -/
def splitOnPipe : List Char → List (List Char)
  | [] => [[]]
  | c :: rest =>
    match splitOnPipe rest with
    | [] => [[c]]
    | l :: ls => if c = '|' then [] :: l :: ls else (c :: l) :: ls

/-- One blank specification extracted by the parser. -/
structure BlankData where
  answer : String
  localOptions : List String
  hint : Option String
deriving DecidableEq

/-- The literal segment marker `hint:`. -/
def hintMark : List Char := ['h', 'i', 'n', 't', ':']

/-- Parser for a single bracket interior: split on `|`; segment 0 is the
answer; a later segment starting with `hint:` overwrites the hint (last one
wins); every other later segment is appended in order to `localOptions`. -/
def parseInner (content : List Char) : BlankData :=
  let items := splitOnPipe content
  let answer := items.headD []
  let r :=
    (items.drop 1).foldl
      (fun (acc : Option (List Char) × List (List Char)) it =>
        if hintMark.isPrefixOf it then (some (it.drop 5), acc.2)
        else (acc.1, acc.2 ++ [it]))
      (none, [])
  { answer := String.mk answer
    localOptions := r.2.map String.mk
    hint := r.1.map String.mk }

/-- The parse in `useBlanks`: split the flattened text, keep the parts that
start with `[` and end with `]`, strip the brackets and parse each interior. -/
def parseText (cs : List Char) : List BlankData :=
  ((jsSplit cs).filter isBracketToken).map (fun p => parseInner (p.drop 1).dropLast)

/-- Per-blank derived status (the `BlankStatus` interface). -/
structure BlankStatus where
  value : String
  isCorrect : Bool
  isWrong : Bool
  touched : Bool
  showValidation : Bool
deriving DecidableEq

/-- The state owned by the `useBlanks` hook. -/
structure BlanksState where
  inputs : List String
  touched : List Bool
  blurred : List Bool
  submitted : Bool
  showAnswers : Bool
  showHintFor : List Bool
deriving DecidableEq

/-- Initial state for `n` blanks (all the `useState` initialisers). -/
def initState (n : Nat) : BlanksState :=
  { inputs := List.replicate n ""
    touched := List.replicate n false
    blurred := List.replicate n false
    submitted := false
    showAnswers := false
    showHintFor := List.replicate n false }

/-- `handleInputChange(index, value)`: store the value, mark touched, and
reset the blur flag so partial matches are valid again while typing. -/
def handleInputChange (st : BlanksState) (index : Nat) (value : String) : BlanksState :=
  { st with
    inputs := st.inputs.set index value
    touched := st.touched.set index true
    blurred := st.blurred.set index false }

/-- `handleBlur(index)`: mark the blank as blurred. -/
def handleBlur (st : BlanksState) (index : Nat) : BlanksState :=
  { st with blurred := st.blurred.set index true }

/-- `checkAnswers()`. -/
def checkAnswers (st : BlanksState) : BlanksState :=
  { st with submitted := true, showAnswers := false }

/-- `reset()`: clears `submitted` and `showAnswers`, refills `inputs` and
`touched` from `answers.length`; it does not touch `blurred` or
`showHintFor`. -/
def resetState (n : Nat) (st : BlanksState) : BlanksState :=
  { st with
    submitted := false
    showAnswers := false
    inputs := List.replicate n ""
    touched := List.replicate n false }

/-- `toggleHint(index)`: flip the per-blank hint flag. -/
def toggleHint (st : BlanksState) (index : Nat) : BlanksState :=
  { st with showHintFor := st.showHintFor.set index (!(st.showHintFor.getD index false)) }

/-- `showAllAnswers()`: copy every answer into `inputs`, set `submitted` and
`showAnswers`. -/
def showAllAnswers (answers : List String) (st : BlanksState) : BlanksState :=
  { st with inputs := answers, submitted := true, showAnswers := true }

/-- The derived status computed inline in `renderContent` (tree-render path):
`isCorrect`, `showValidation = submitted || (touched && value.trim() !== '')`,
partial-match suppression in `isWrong`. -/
def blankStatus (data : BlankData) (st : BlanksState) (index : Nat) : BlankStatus :=
  let value := st.inputs.getD index ""
  let isCorrect := normVal value == jsLower data.answer
  let showValidation := st.submitted || (st.touched.getD index false && !(jsTrim value == ""))
  let isPartialMatch :=
    !(jsTrim value == "") && (normVal value).data.isPrefixOf (jsLower data.answer).data
  { value := value
    isCorrect := isCorrect
    isWrong := showValidation && !isCorrect &&
      (st.submitted || (!isPartialMatch || st.blurred.getD index false))
    touched := st.touched.getD index false
    showValidation := showValidation }

/-- `allCorrect = inputs.every((val, idx) => val.trim().toLowerCase() ===
answers[idx].toLowerCase())` (in the hook `inputs` and `answers` always have
equal length, so indexing never reaches the default). -/
def allCorrect (inputs answers : List String) : Bool :=
  (List.range inputs.length).all
    (fun idx => normVal (inputs.getD idx "") == jsLower (answers.getD idx ""))

/-- Lexicographic comparison of character lists by code point, the order used
by JavaScript's default `Array.sort` on strings. -/
def charListLe : List Char → List Char → Bool
  | [], _ => true
  | _ :: _, [] => false
  | a :: as, b :: bs => if a.toNat = b.toNat then charListLe as bs else decide (a.toNat < b.toNat)

/-- String comparison for `Array.sort()`. -/
def strLe (a b : String) : Bool := charListLe a.data b.data

/-- Insert into a sorted list (sorting is extensional: on the duplicate-free
lists produced by the `Set` dedup, insertion sort returns exactly the sorted
permutation that `Array.sort` returns). -/
def insertSorted (x : String) : List String → List String
  | [] => [x]
  | y :: ys => if strLe x y then x :: y :: ys else y :: insertSorted x ys

/-- The result of JavaScript `array.sort()` on strings. -/
def sortStrs (l : List String) : List String := l.foldr insertSorted []

/-- Worker for `jsSetDedup`: keep the first occurrence of each element, as
iterating a JavaScript `Set` does. -/
def dedupGo (seen : List String) : List String → List String
  | [] => []
  | x :: xs => if x ∈ seen then dedupGo seen xs else x :: dedupGo (x :: seen) xs

/-- `Array.from(new Set(l))`. -/
def jsSetDedup (l : List String) : List String := dedupGo [] l

/-- The dropdown choices computed in `renderBlank` for picker mode:
`currentOptions = localOptions.length > 0 ? localOptions : options`, then
`Array.from(new Set([...currentOptions, answer])).sort()`. -/
def dropdownOptions (localOptions globals : List String) (answer : String) : List String :=
  let currentOptions := if 0 < localOptions.length then localOptions else globals
  sortStrs (jsSetDedup (currentOptions ++ [answer]))

/-- Modelled from the spec: the choice set the specification describes,
`localOptions ∪ globalOptions ∪ {answer}`, deduplicated and sorted lexically.
Stated only to be compared with `dropdownOptions` (the code). -/
def dropdownOptionsSpec (localOptions globals : List String) (answer : String) : List String :=
  sortStrs (jsSetDedup (localOptions ++ globals ++ [answer]))

/-- State of the completion bridge: the `isCompleted` flag plus a count of
`markExerciseComplete` invocations (the count is the observable we reason
about; the real code performs the external call where the count is
incremented). -/
structure CompletionState where
  isCompleted : Bool
  calls : Nat
deriving DecidableEq

/-- One evaluation of the completion `useEffect`:
`if (allCorrect && exerciseIdRef.current && !isCompleted) {
markExerciseComplete(...); setIsCompleted(true); }`. -/
def completionStep (exId : String) (s : CompletionState) (allC : Bool) : CompletionState :=
  if allC && !exId.data.isEmpty && !s.isCompleted then
    { isCompleted := true, calls := s.calls + 1 }
  else s

/-- Fold the completion effect over the sequence of `allCorrect` values seen
across renders of a single mount, starting from `isCompleted = init` (the
value read from the progress store on mount) and zero calls. -/
def runCompletion (exId : String) (init : Bool) (evts : List Bool) : CompletionState :=
  evts.foldl (completionStep exId) { isCompleted := init, calls := 0 }

/-- Input content tree: text leaves and elements with ordered children, the
shape `renderContent` walks. -/
inductive RNode where
  | text : List Char → RNode
  | elem : String → List RNode → RNode

/-- Output of the substitution: literal text, a rendered blank (carrying its
index, spec and derived status), or a reconstructed element. -/
inductive ONode where
  | text : List Char → ONode
  | blank : Nat → BlankData → BlankStatus → ONode
  | elem : String → List ONode → ONode

/-- Substitution over the split parts of one text leaf: a bracket-shaped part
consumes the next spec and becomes a rendered blank, unless the counter has
reached `specs.length`, in which case the raw bracket text is emitted
verbatim and the counter is left unchanged; other parts pass through. -/
def processParts (specs : List BlankData) (st : BlanksState) :
    List (List Char) → Nat → List ONode × Nat
  | [], c => ([], c)
  | p :: ps, c =>
    if isBracketToken p then
      if specs.length ≤ c then
        let r := processParts specs st ps c
        (ONode.text p :: r.1, r.2)
      else
        let data := specs.getD c { answer := "", localOptions := [], hint := none }
        let r := processParts specs st ps (c + 1)
        (ONode.blank c data (blankStatus data st c) :: r.1, r.2)
    else
      let r := processParts specs st ps c
      (ONode.text p :: r.1, r.2)

mutual
/-- The recursive renderer `processNode` of `renderContent`, with the mutable
`blankIndexCounter` made an explicit accumulator threaded depth-first,
left-to-right through the whole traversal. -/
def processNode (specs : List BlankData) (st : BlanksState) :
    RNode → Nat → List ONode × Nat
  | .text s, c => processParts specs st (jsSplit s) c
  | .elem tag children, c =>
    let r := processChildren specs st children c
    ([ONode.elem tag r.1], r.2)

/-- Left-to-right traversal of a child list, threading the counter. -/
def processChildren (specs : List BlankData) (st : BlanksState) :
    List RNode → Nat → List ONode × Nat
  | [], c => ([], c)
  | n :: ns, c =>
    let r := processNode specs st n c
    let r2 := processChildren specs st ns r.2
    (r.1 ++ r2.1, r2.2)
end

mutual
/-- The output the walker produces when every bracket token is emitted
verbatim: each text leaf becomes its split parts as literal text, structure
is preserved. -/
def verbatimNode : RNode → List ONode
  | .text s => (jsSplit s).map ONode.text
  | .elem tag children => [ONode.elem tag (verbatimChildren children)]

/-- Verbatim rendering of a child list. -/
def verbatimChildren : List RNode → List ONode
  | [] => []
  | n :: ns => verbatimNode n ++ verbatimChildren ns
end

/-- One part of the marked-up text built for the table path: literal text or
an inert index-carrying marker (`<span data-blank="i"></span>`). -/
inductive PMPart where
  | text : List Char → PMPart
  | marker : Nat → PMPart

/-- The map with counter in `processedMarkdown`: a bracket-shaped part
becomes a marker with the next index, every other part stays literal. -/
def pmGo : List (List Char) → Nat → List PMPart
  | [], _ => []
  | p :: ps, c =>
    if isBracketToken p then PMPart.marker c :: pmGo ps (c + 1)
    else PMPart.text p :: pmGo ps c

/-- The placeholder markup produced from the (dedented) raw text in the table
path, kept as a part list (the source joins it into one markdown string). -/
def processedMarkdownParts (rawText : List Char) : List PMPart :=
  pmGo (jsSplit rawText) 0

/-- Rendering of one part into the markdown string the source feeds to the
external renderer. -/
def pmRender : PMPart → List Char
  | .text p => p
  | .marker i => ("<span data-blank=" ++ "\"" ++ toString i ++ "\"" ++ "></span>").data

/-- The joined `processedMarkdown` string (table path, `isTable` guard
included: the source returns the empty string otherwise). -/
def processedMarkdownOf (t : List Char) : List Char :=
  let r := computeRawTable t
  if r.2 then ((processedMarkdownParts r.1).map pmRender).flatten else []

/-- Index carried by a marker part, if any. -/
def markerIdx : PMPart → Option Nat
  | .marker i => some i
  | .text _ => none

/-- Number of placeholder markers in a part list. -/
def markerCount (ps : List PMPart) : Nat := (ps.filterMap markerIdx).length

/-- Embedding of `InlineMarkdownBlank`: resolve a marker's index through the
shared context; `none` models `return null` (the marker renders nothing) when
the index has no `BlankData`.  The status uses the table-path formula
(`touched && blurred && value.trim() !== ''`). -/
def inlineMarkdownBlank (blanksData : List BlankData) (st : BlanksState) (k : Nat) :
    Option (BlankData × BlankStatus) :=
  match blanksData[k]? with
  | none => none
  | some data =>
    let value := st.inputs.getD k ""
    let isCorrect := normVal value == jsLower data.answer
    let showValidation :=
      st.touched.getD k false && st.blurred.getD k false && !(jsTrim value == "")
    some (data,
      { value := value
        isCorrect := isCorrect
        isWrong := showValidation && !isCorrect
        touched := st.touched.getD k false
        showValidation := showValidation })

theorem completion_foldl_completed (exId : String) :
    ∀ (evts : List Bool) (s : CompletionState), s.isCompleted = true →
      evts.foldl (completionStep exId) s = s := by
  intro evts
  induction evts with
  | nil => intro s _; rfl
  | cons b rest ih =>
    intro s hs
    have hstep : completionStep exId s b = s := by
      simp [completionStep, hs]
    rw [List.foldl_cons, hstep]
    exact ih s hs

theorem runCompletion_false_calls (exId : String) (evts : List Bool)
    (h : exId.data.isEmpty = false) :
    (runCompletion exId false evts).calls = if evts.any (fun b => b) then 1 else 0 := by
  induction evts with
  | nil => rfl
  | cons b rest ih =>
    cases b with
    | false =>
      have hstep : completionStep exId { isCompleted := false, calls := 0 } false =
          { isCompleted := false, calls := 0 } := by simp [completionStep]
      simp only [runCompletion, List.foldl_cons, hstep] at ih ⊢
      simpa using ih
    | true =>
      have hstep : completionStep exId { isCompleted := false, calls := 0 } true =
          { isCompleted := true, calls := 1 } := by simp [completionStep, h]
      simp only [runCompletion, List.foldl_cons, hstep]
      rw [completion_foldl_completed exId rest _ rfl]
      simp

/-- C2: within one mount with unchanged content, the completion callback
fires exactly once after `allCorrect` first becomes true (given a resolved,
non-empty exercise identifier), and never again — even across later
true→false→true flips — because the `isCompleted` flag is never reset. -/
theorem c2_completion_at_most_once (exId : String) (evts : List Bool)
    (h : exId.data.isEmpty = false) :
    (runCompletion exId false evts).calls = (if evts.any (fun b => b) then 1 else 0) ∧
    ∀ init : Bool, (runCompletion exId init evts).calls ≤ 1 := by
  refine ⟨runCompletion_false_calls exId evts h, ?_⟩
  intro init
  cases init with
  | true =>
    rw [runCompletion, completion_foldl_completed exId evts _ rfl]
    exact Nat.zero_le 1
  | false =>
    rw [runCompletion_false_calls exId evts h]
    split <;> omega

/-- Witness for `c2_completion_at_most_once` at a concrete run containing a
true→false→true flip. -/
theorem c2_completion_at_most_once_witness :
    (runCompletion "ex1" false [true, false, true]).calls = 1 := by
  have h := (c2_completion_at_most_once "ex1" [true, false, true] (by decide)).1
  rw [h]; decide

/-- C8: `reset` clears `submitted`, refills every value with `""` and every
touched flag with `false`, and leaves the `blurred` flags exactly as they
were. -/
theorem c8_reset_frame (n : Nat) (st : BlanksState) :
    (resetState n st).submitted = false ∧
    (resetState n st).inputs = List.replicate n "" ∧
    (resetState n st).touched = List.replicate n false ∧
    (resetState n st).blurred = st.blurred :=
  ⟨rfl, rfl, rfl, rfl⟩

/-- C9: the per-blank operations are frame-local — each one touches only its
own index, leaving every other index and every unrelated field unchanged. -/
theorem c9_per_blank_frame (st : BlanksState) (i j : Nat) (v : String)
    (hi : i < st.inputs.length) (hj : j ≠ i) :
    ((handleInputChange st i v).inputs.getD j "" = st.inputs.getD j "" ∧
     (handleInputChange st i v).touched.getD j false = st.touched.getD j false ∧
     (handleInputChange st i v).blurred.getD j false = st.blurred.getD j false ∧
     (handleInputChange st i v).showHintFor = st.showHintFor ∧
     (handleInputChange st i v).submitted = st.submitted) ∧
    ((handleBlur st i).blurred.getD j false = st.blurred.getD j false ∧
     (handleBlur st i).inputs = st.inputs ∧
     (handleBlur st i).touched = st.touched ∧
     (handleBlur st i).showHintFor = st.showHintFor ∧
     (handleBlur st i).submitted = st.submitted) ∧
    ((toggleHint st i).showHintFor.getD j false = st.showHintFor.getD j false ∧
     (toggleHint st i).inputs = st.inputs ∧
     (toggleHint st i).touched = st.touched ∧
     (toggleHint st i).blurred = st.blurred ∧
     (toggleHint st i).submitted = st.submitted) := by
  clear hi
  refine ⟨⟨?_, ?_, ?_, rfl, rfl⟩, ⟨?_, rfl, rfl, rfl, rfl⟩, ⟨?_, rfl, rfl, rfl, rfl⟩⟩ <;>
    simp [handleInputChange, handleBlur, toggleHint,
      List.getD_eq_getElem?_getD, List.getElem?_set_ne (Ne.symm hj)]

/-- Witness for `c9_per_blank_frame` at a concrete two-blank state. -/
theorem c9_per_blank_frame_witness :
    (handleInputChange (initState 2) 0 "x").inputs.getD 1 "" =
      (initState 2).inputs.getD 1 "" :=
  ((c9_per_blank_frame (initState 2) 0 1 "x" (by decide) (by decide)).1).1

/-- C1: tree-render path with answer `"Paris"`: typing `"Par"` without
blurring shows no error (partial-match suppression); blurring at `"Par"`
flags the blank wrong; any further `handleInputChange` resets `blurred`, and
as long as the new value normalises to a prefix of the answer the blank is
not flagged wrong again until the next blur (after which a still-wrong value
is flagged again). -/
theorem c1_partial_match_flow :
    (blankStatus { answer := "Paris", localOptions := [], hint := none }
      (handleInputChange (initState 1) 0 "Par") 0).isWrong = false ∧
    (blankStatus { answer := "Paris", localOptions := [], hint := none }
      (handleBlur (handleInputChange (initState 1) 0 "Par") 0) 0).isWrong = true ∧
    (∀ v : String,
      (handleInputChange (handleBlur (handleInputChange (initState 1) 0 "Par") 0) 0
        v).blurred.getD 0 false = false) ∧
    (∀ v : String,
      (normVal v).data.isPrefixOf (jsLower "Paris").data = true →
      (blankStatus { answer := "Paris", localOptions := [], hint := none }
        (handleInputChange (handleBlur (handleInputChange (initState 1) 0 "Par") 0) 0 v)
        0).isWrong = false) ∧
    (blankStatus { answer := "Paris", localOptions := [], hint := none }
      (handleBlur
        (handleInputChange (handleBlur (handleInputChange (initState 1) 0 "Par") 0) 0 "Pari")
        0) 0).isWrong = true := by
  refine ⟨by decide, by decide, fun v => rfl, ?_, by decide⟩
  intro v h
  simp only [blankStatus, handleInputChange, handleBlur, initState]
  cases hv : (jsTrim v == "") with
  | true => simp [hv]
  | false => simp [hv, h]

/-- Witness for `c1_partial_match_flow`, discharging the prefix hypothesis at
the concrete continuation `"Pari"`. -/
theorem c1_partial_match_flow_witness :
    (blankStatus { answer := "Paris", localOptions := [], hint := none }
      (handleInputChange (handleBlur (handleInputChange (initState 1) 0 "Par") 0) 0 "Pari")
      0).isWrong = false :=
  (c1_partial_match_flow).2.2.2.1 "Pari" (by decide)


/-- C7: after `showAllAnswers` (revealAll) every input equals its answer and
`submitted` is set, so `allCorrect` is true for any non-empty answer set
whose answers carry no surrounding whitespace (the non-degeneracy
condition). -/
theorem c7_reveal_all_correct (answers : List String) (st : BlanksState)
    (hne : answers ≠ []) (hnd : ∀ a ∈ answers, jsTrim a = a) :
    allCorrect (showAllAnswers answers st).inputs answers = true ∧
    (showAllAnswers answers st).submitted = true := by
  refine ⟨?_, rfl⟩
  show allCorrect answers answers = true
  rw [allCorrect, List.all_eq_true]
  intro idx hidx
  rw [List.mem_range] at hidx
  have hd : answers.getD idx "" = answers[idx] := by
    rw [List.getD_eq_getElem?_getD, List.getElem?_eq_getElem hidx]
    rfl
  have hmem : answers[idx] ∈ answers := List.getElem_mem hidx
  have htr := hnd _ hmem
  simp only [hd, normVal, htr]
  simp

/-- Witness for `c7_reveal_all_correct` at a concrete two-answer state. -/
theorem c7_reveal_all_correct_witness :
    allCorrect (showAllAnswers ["Paris", "cat"] (initState 2)).inputs ["Paris", "cat"] = true :=
  (c7_reveal_all_correct ["Paris", "cat"] (initState 2) (by decide) (by decide)).1

theorem parse_fold_char (items : List (List Char)) :
    ∀ (h0 : Option (List Char)) (o0 : List (List Char)),
      items.foldl
        (fun (acc : Option (List Char) × List (List Char)) it =>
          if hintMark.isPrefixOf it then (some (it.drop 5), acc.2)
          else (acc.1, acc.2 ++ [it]))
        (h0, o0) =
      ((match (items.filter (fun it => hintMark.isPrefixOf it)).getLast? with
        | some x => some (x.drop 5)
        | none => h0),
       o0 ++ items.filter (fun it => !(hintMark.isPrefixOf it))) := by
  induction items with
  | nil => intro h0 o0; simp
  | cons it rest ih =>
    intro h0 o0
    cases hp : hintMark.isPrefixOf it with
    | true =>
      rw [List.foldl_cons]
      simp only [hp, if_true]
      rw [ih (some (it.drop 5)) o0]
      simp only [List.filter_cons, hp]
      cases hfp : rest.filter (fun i' => hintMark.isPrefixOf i') with
      | nil => simp
      | cons y ys =>
        cases hz : (y :: ys).getLast? with
        | none => simp [List.getLast?_eq_none_iff] at hz
        | some z => simp [hz]
    | false =>
      rw [List.foldl_cons]
      simp only [hp, if_false, Bool.false_eq_true]
      rw [ih h0 (o0 ++ [it])]
      simp only [List.filter_cons, hp]
      simp

/-- C4: the bracket interior splits on `|`: segment 0 is the answer, later
`hint:` segments set the hint with the prefix stripped (last one wins), all
other later segments become `localOptions` in order; in particular
`[cat|dog|hint:a pet]` parses to exactly one BlankData
`{answer := "cat", localOptions := ["dog"], hint := "a pet"}`. -/
theorem c4_bracket_parsing :
    (∀ content : List Char,
      parseInner content =
        { answer := String.mk ((splitOnPipe content).headD [])
          localOptions :=
            (((splitOnPipe content).drop 1).filter
              (fun it => !(hintMark.isPrefixOf it))).map String.mk
          hint :=
            ((((splitOnPipe content).drop 1).filter
              (fun it => hintMark.isPrefixOf it)).getLast?).map
              (fun x => String.mk (x.drop 5)) }) ∧
    parseText "[cat|dog|hint:a pet]".data =
      [{ answer := "cat", localOptions := ["dog"], hint := some "a pet" }] := by
  refine ⟨?_, by decide⟩
  intro content
  simp only [parseInner]
  rw [parse_fold_char]
  cases hl : (((splitOnPipe content).drop 1).filter
      (fun it => hintMark.isPrefixOf it)).getLast? with
  | none => simp [hl]
  | some x => simp [hl]

theorem processParts_overrun (specs : List BlankData) (st : BlanksState) :
    ∀ (parts : List (List Char)) (c : Nat), specs.length ≤ c →
      processParts specs st parts c = (parts.map ONode.text, c) := by
  intro parts
  induction parts with
  | nil => intro c _; rfl
  | cons p ps ih =>
    intro c hc
    cases hb : isBracketToken p with
    | false => simp [processParts, hb, ih c hc]
    | true => simp [processParts, hb, hc, ih c hc]

theorem rnodeStrongInd (motive : RNode → Prop)
    (h1 : ∀ s, motive (.text s))
    (h2 : ∀ tag children, (∀ n ∈ children, motive n) → motive (.elem tag children)) :
    ∀ n, motive n
  | .text s => h1 s
  | .elem tag children =>
    h2 tag children (fun n hn => rnodeStrongInd motive h1 h2 n)
termination_by n => sizeOf n
decreasing_by
  have := List.sizeOf_lt_of_mem hn
  simp only [RNode.elem.sizeOf_spec]
  omega

theorem processChildren_overrun (specs : List BlankData) (st : BlanksState) :
    ∀ (ns : List RNode),
      (∀ n ∈ ns, ∀ c, specs.length ≤ c → processNode specs st n c = (verbatimNode n, c)) →
      ∀ c, specs.length ≤ c →
        processChildren specs st ns c = (verbatimChildren ns, c) := by
  intro ns
  induction ns with
  | nil => intro _ c _; rfl
  | cons n ns ih =>
    intro h c hc
    simp only [processChildren, verbatimChildren]
    rw [h n (List.mem_cons_self n ns) c hc]
    rw [ih (fun m hm => h m (List.mem_cons_of_mem n hm)) c hc]

/-- C6: once the running blank counter has reached the number of parsed
specs, the walker emits every further bracket token verbatim as literal text
(structure preserved, counter unchanged) — total fail-soft behaviour, no
exception path exists. -/
theorem c6_index_overrun_failsoft (specs : List BlankData) (st : BlanksState) :
    ∀ (node : RNode) (c : Nat), specs.length ≤ c →
      processNode specs st node c = (verbatimNode node, c) := by
  intro node
  refine rnodeStrongInd
    (motive := fun node => ∀ c, specs.length ≤ c →
      processNode specs st node c = (verbatimNode node, c)) ?_ ?_ node
  · intro s c hc
    simp only [processNode, verbatimNode]
    exact processParts_overrun specs st (jsSplit s) c hc
  · intro tag children ih c hc
    simp only [processNode, verbatimNode]
    rw [processChildren_overrun specs st children ih c hc]

/-- Witness for `c6_index_overrun_failsoft`: an empty spec list with a bracket
token in the text emits the raw bracket text. -/
theorem c6_index_overrun_failsoft_witness :
    processNode [] (initState 0) (RNode.text "[x]".data) 0 =
      ([ONode.text [], ONode.text "[x]".data, ONode.text []], 0) := by
  rw [c6_index_overrun_failsoft [] (initState 0) (RNode.text "[x]".data) 0 (Nat.le_refl 0)]
  rfl

theorem mem_insertSorted (x y : String) :
    ∀ l : List String, y ∈ insertSorted x l ↔ y = x ∨ y ∈ l := by
  intro l
  induction l with
  | nil => simp [insertSorted]
  | cons z zs ih =>
    cases h : strLe x z with
    | true => simp [insertSorted, h]
    | false =>
      simp only [insertSorted, h, Bool.false_eq_true, if_false, List.mem_cons, ih]
      tauto

theorem mem_sortStrs (y : String) : ∀ l : List String, y ∈ sortStrs l ↔ y ∈ l := by
  intro l
  induction l with
  | nil => simp [sortStrs]
  | cons z zs ih =>
    simp only [sortStrs, List.foldr_cons] at ih ⊢
    rw [mem_insertSorted, ih, List.mem_cons]

theorem mem_dedupGo (y : String) :
    ∀ (l seen : List String), y ∈ dedupGo seen l ↔ (y ∈ l ∧ y ∉ seen) := by
  intro l
  induction l with
  | nil => intro seen; simp [dedupGo]
  | cons x xs ih =>
    intro seen
    by_cases hx : x ∈ seen
    · have hd : dedupGo seen (x :: xs) = dedupGo seen xs := by
        simp [dedupGo, hx]
      rw [hd, ih seen]
      constructor
      · rintro ⟨h1, h2⟩
        exact ⟨List.mem_cons_of_mem x h1, h2⟩
      · rintro ⟨h1, h2⟩
        rcases List.mem_cons.mp h1 with rfl | h1'
        · exact absurd hx h2
        · exact ⟨h1', h2⟩
    · have hd : dedupGo seen (x :: xs) = x :: dedupGo (x :: seen) xs := by
        simp [dedupGo, hx]
      rw [hd]
      constructor
      · intro hmem
        rcases List.mem_cons.mp hmem with rfl | h1
        · exact ⟨List.mem_cons_self y xs, hx⟩
        · obtain ⟨h2, h3⟩ := (ih (x :: seen)).mp h1
          exact ⟨List.mem_cons_of_mem x h2,
            fun hs => h3 (List.mem_cons_of_mem x hs)⟩
      · rintro ⟨h1, h2⟩
        rcases List.mem_cons.mp h1 with rfl | h1'
        · exact List.mem_cons_self y _
        · by_cases hxy : y = x
          · exact hxy ▸ List.mem_cons_self x _
          · refine List.mem_cons_of_mem x ((ih (x :: seen)).mpr ⟨h1', ?_⟩)
            intro hc
            rcases List.mem_cons.mp hc with h | h
            · exact hxy h
            · exact h2 h

theorem nodup_dedupGo : ∀ (l seen : List String), (dedupGo seen l).Nodup := by
  intro l
  induction l with
  | nil => intro seen; simp [dedupGo]
  | cons x xs ih =>
    intro seen
    by_cases hx : x ∈ seen
    · simpa [dedupGo, if_pos hx] using ih seen
    · simp only [dedupGo, if_neg hx, List.nodup_cons]
      refine ⟨?_, ih (x :: seen)⟩
      intro hmem
      have := (mem_dedupGo x xs (x :: seen)).mp hmem
      exact this.2 (List.mem_cons_self x seen)

theorem charListLe_total : ∀ as bs : List Char,
    charListLe as bs = true ∨ charListLe bs as = true := by
  intro as
  induction as with
  | nil => intro bs; exact Or.inl rfl
  | cons a as ih =>
    intro bs
    cases bs with
    | nil => exact Or.inr rfl
    | cons b bs =>
      by_cases e : a.toNat = b.toNat
      · rcases ih bs with h | h
        · refine Or.inl ?_
          simp only [charListLe, if_pos e]
          exact h
        · refine Or.inr ?_
          simp only [charListLe, if_pos e.symm]
          exact h
      · rcases Nat.lt_or_ge a.toNat b.toNat with h | h
        · refine Or.inl ?_
          simp only [charListLe, if_neg e]
          exact decide_eq_true h
        · have hlt : b.toNat < a.toNat := Nat.lt_of_le_of_ne h (fun hh => e hh.symm)
          have hne : b.toNat ≠ a.toNat := fun hh => e hh.symm
          refine Or.inr ?_
          simp only [charListLe, if_neg hne]
          exact decide_eq_true hlt

theorem charListLe_trans : ∀ as bs cs : List Char,
    charListLe as bs = true → charListLe bs cs = true → charListLe as cs = true := by
  intro as
  induction as with
  | nil => intro bs cs _ _; rfl
  | cons a as ih =>
    intro bs cs h1 h2
    cases bs with
    | nil => simp [charListLe] at h1
    | cons b bs =>
      cases cs with
      | nil => simp [charListLe] at h2
      | cons c cs =>
        simp only [charListLe] at h1 h2 ⊢
        by_cases e1 : a.toNat = b.toNat
        · rw [if_pos e1] at h1
          by_cases e2 : b.toNat = c.toNat
          · rw [if_pos e2] at h2
            rw [if_pos (e1.trans e2)]
            exact ih bs cs h1 h2
          · rw [if_neg e2] at h2
            have hbc : b.toNat < c.toNat := of_decide_eq_true h2
            have hne : a.toNat ≠ c.toNat := by omega
            rw [if_neg hne]
            exact decide_eq_true (by omega)
        · rw [if_neg e1] at h1
          have hab : a.toNat < b.toNat := of_decide_eq_true h1
          by_cases e2 : b.toNat = c.toNat
          · have hne : a.toNat ≠ c.toNat := by omega
            rw [if_neg hne]
            exact decide_eq_true (by omega)
          · rw [if_neg e2] at h2
            have hbc : b.toNat < c.toNat := of_decide_eq_true h2
            have hne : a.toNat ≠ c.toNat := by omega
            rw [if_neg hne]
            exact decide_eq_true (by omega)

theorem strLe_total (a b : String) : strLe a b = true ∨ strLe b a = true :=
  charListLe_total a.data b.data

theorem strLe_trans (a b c : String) :
    strLe a b = true → strLe b c = true → strLe a c = true :=
  charListLe_trans a.data b.data c.data

theorem pairwise_insertSorted (x : String) :
    ∀ l : List String, l.Pairwise (fun u v => strLe u v = true) →
      (insertSorted x l).Pairwise (fun u v => strLe u v = true) := by
  intro l
  induction l with
  | nil => intro _; simp [insertSorted]
  | cons y ys ih =>
    intro hp
    rw [List.pairwise_cons] at hp
    obtain ⟨hy, hys⟩ := hp
    cases hxy : strLe x y with
    | true =>
      simp only [insertSorted, hxy, if_true]
      rw [List.pairwise_cons]
      refine ⟨?_, ?_⟩
      · intro z hz
        rcases List.mem_cons.mp hz with rfl | hz'
        · exact hxy
        · exact strLe_trans x y z hxy (hy z hz')
      · rw [List.pairwise_cons]; exact ⟨hy, hys⟩
    | false =>
      have hyx : strLe y x = true := by
        rcases strLe_total x y with h | h
        · rw [hxy] at h; exact Bool.noConfusion h
        · exact h
      simp only [insertSorted, hxy, Bool.false_eq_true, if_false]
      rw [List.pairwise_cons]
      refine ⟨?_, ih hys⟩
      intro z hz
      rw [mem_insertSorted] at hz
      rcases hz with rfl | hz'
      · exact hyx
      · exact hy z hz'

theorem pairwise_sortStrs :
    ∀ l : List String, (sortStrs l).Pairwise (fun u v => strLe u v = true) := by
  intro l
  induction l with
  | nil => simp [sortStrs]
  | cons y ys ih => exact pairwise_insertSorted y (sortStrs ys) ih

theorem nodup_insertSorted (x : String) :
    ∀ l : List String, x ∉ l → l.Nodup → (insertSorted x l).Nodup := by
  intro l
  induction l with
  | nil => intro _ _; simp [insertSorted]
  | cons y ys ih =>
    intro hx hn
    rw [List.nodup_cons] at hn
    have hxy : x ≠ y := fun e => hx (e ▸ List.mem_cons_self y ys)
    have hxys : x ∉ ys := fun e => hx (List.mem_cons_of_mem y e)
    cases h : strLe x y with
    | true =>
      simp only [insertSorted, h, if_true, List.nodup_cons]
      exact ⟨hx, hn⟩
    | false =>
      simp only [insertSorted, h, Bool.false_eq_true, if_false, List.nodup_cons]
      refine ⟨?_, ih hxys hn.2⟩
      rw [mem_insertSorted]
      rintro (rfl | hmem)
      · exact hxy rfl
      · exact hn.1 hmem

theorem nodup_sortStrs : ∀ l : List String, l.Nodup → (sortStrs l).Nodup := by
  intro l
  induction l with
  | nil => intro _; simp [sortStrs]
  | cons y ys ih =>
    intro hn
    rw [List.nodup_cons] at hn
    exact nodup_insertSorted y (sortStrs ys)
      (fun hm => hn.1 ((mem_sortStrs y ys).mp hm)) (ih hn.2)

/-- C3 counterexample: the dropdown built by the code ignores the global
options whenever `localOptions` is non-empty, so with `localOptions =
["dog"]`, global options `["fish"]` and answer `"cat"` it offers
`["cat", "dog"]`, not the three-element union the claim describes. -/
theorem c3_dropdown_union_cex :
    dropdownOptions ["dog"] ["fish"] "cat" = ["cat", "dog"] ∧
    dropdownOptionsSpec ["dog"] ["fish"] "cat" = ["cat", "dog", "fish"] ∧
    dropdownOptions ["dog"] ["fish"] "cat" ≠ dropdownOptionsSpec ["dog"] ["fish"] "cat" := by
  decide

/-- C3 amended: in picker mode the choices are the blank's `localOptions`
when non-empty, otherwise the global options, together with the answer —
deduplicated and sorted lexically (global options are ignored whenever local
options exist). -/
theorem c3_dropdown_amended (lo go : List String) (a : String) :
    (∀ x : String, x ∈ dropdownOptions lo go a ↔
       (x ∈ (if 0 < lo.length then lo else go) ∨ x = a)) ∧
    (dropdownOptions lo go a).Pairwise (fun u v => strLe u v = true) ∧
    (dropdownOptions lo go a).Nodup := by
  refine ⟨?_, ?_, ?_⟩
  · intro x
    simp only [dropdownOptions, jsSetDedup]
    rw [mem_sortStrs, mem_dedupGo]
    simp [List.mem_append]
  · exact pairwise_sortStrs _
  · exact nodup_sortStrs _ (nodup_dedupGo _ [])

theorem isTableOf_eq (t : List Char) :
    isTableOf t = ((splitLines t).any (fun l => l.contains '|') &&
      (splitLines t).any isSeparatorLine) := by
  simp only [isTableOf, computeRawTable]
  split
  · split
    · split
      · rfl
      · rfl
    · rfl
  · rename_i h
    simp only [Bool.or_eq_true, not_or, Bool.not_eq_true] at h
    exact h.1.symm

theorem splitLines_ne_nil : ∀ t : List Char, splitLines t ≠ [] := by
  intro t
  cases t with
  | nil => simp [splitLines]
  | cons c rest =>
    simp only [splitLines]
    cases h : splitLines rest with
    | nil => simp
    | cons l ls => by_cases hc : c = '\n' <;> simp [hc]

theorem mem_splitLines_no_newline : ∀ (t l : List Char), l ∈ splitLines t → '\n' ∉ l := by
  intro t
  induction t with
  | nil =>
    intro l hl
    simp only [splitLines, List.mem_singleton] at hl
    subst hl
    simp
  | cons c rest ih =>
    intro l hl
    simp only [splitLines] at hl
    cases h : splitLines rest with
    | nil => exact absurd h (splitLines_ne_nil rest)
    | cons hd tl =>
      rw [h] at hl
      have hl' : l ∈ (if c = '\n' then [] :: hd :: tl else (c :: hd) :: tl) := hl
      by_cases hc : c = '\n'
      · rw [if_pos hc] at hl'
        rcases List.mem_cons.mp hl' with rfl | hl2
        · simp
        · exact ih l (h ▸ hl2)
      · rw [if_neg hc] at hl'
        rcases List.mem_cons.mp hl' with rfl | hl2
        · intro hmem
          rcases List.mem_cons.mp hmem with he | hmem'
          · exact hc he.symm
          · exact ih hd (h ▸ List.mem_cons_self hd tl) hmem'
        · exact ih l (h ▸ List.mem_cons_of_mem hd hl2)

theorem splitLines_append_newline :
    ∀ (l rest : List Char), '\n' ∉ l →
      splitLines (l ++ '\n' :: rest) = l :: splitLines rest := by
  intro l
  induction l with
  | nil =>
    intro rest _
    simp only [List.nil_append, splitLines]
    cases h : splitLines rest with
    | nil => exact absurd h (splitLines_ne_nil rest)
    | cons hd tl => simp
  | cons c cs ih =>
    intro rest hnl
    have hc : c ≠ '\n' := fun e => hnl (e ▸ List.mem_cons_self c cs)
    have hcs : '\n' ∉ cs := fun e => hnl (List.mem_cons_of_mem c e)
    show (match splitLines (cs ++ '\n' :: rest) with
      | [] => [[c]]
      | l :: ls => if c = '\n' then [] :: l :: ls else (c :: l) :: ls) =
      (c :: cs) :: splitLines rest
    rw [ih rest hcs]
    show (if c = '\n' then [] :: cs :: splitLines rest
      else (c :: cs) :: splitLines rest) = (c :: cs) :: splitLines rest
    rw [if_neg hc]

theorem splitLines_single : ∀ l : List Char, '\n' ∉ l → splitLines l = [l] := by
  intro l
  induction l with
  | nil => intro _; rfl
  | cons c cs ih =>
    intro hnl
    have hc : c ≠ '\n' := fun e => hnl (e ▸ List.mem_cons_self c cs)
    have hcs : '\n' ∉ cs := fun e => hnl (List.mem_cons_of_mem c e)
    show (match splitLines cs with
      | [] => [[c]]
      | l :: ls => if c = '\n' then [] :: l :: ls else (c :: l) :: ls) = [c :: cs]
    rw [ih hcs]
    show (if c = '\n' then [] :: cs :: [] else (c :: cs) :: []) = [c :: cs]
    rw [if_neg hc]

theorem splitLines_joinLines :
    ∀ ls : List (List Char), ls ≠ [] → (∀ l ∈ ls, '\n' ∉ l) →
      splitLines (joinLines ls) = ls := by
  intro ls
  induction ls with
  | nil => intro h _; exact absurd rfl h
  | cons l ls ih =>
    intro _ hnl
    cases ls with
    | nil =>
      simp only [joinLines]
      exact splitLines_single l (hnl l (List.mem_cons_self l []))
    | cons l2 ls2 =>
      have hjoin : joinLines (l :: l2 :: ls2) = l ++ '\n' :: joinLines (l2 :: ls2) := rfl
      rw [hjoin, splitLines_append_newline l _ (hnl l (List.mem_cons_self l _))]
      rw [ih (by simp) (fun m hm => hnl m (List.mem_cons_of_mem l hm))]

theorem dropWhile_ws_append (ws : List Char) (h : ∀ c ∈ ws, jsWhitespace c = true) :
    ∀ l : List Char, (ws ++ l).dropWhile jsWhitespace = l.dropWhile jsWhitespace := by
  induction ws with
  | nil => intro l; rfl
  | cons c cs ih =>
    intro l
    have hc : jsWhitespace c = true := h c (List.mem_cons_self c cs)
    have hcs : ∀ c' ∈ cs, jsWhitespace c' = true :=
      fun c' hm => h c' (List.mem_cons_of_mem c hm)
    simp only [List.cons_append, List.dropWhile_cons, hc, if_true]
    exact ih hcs l

theorem trimChars_ws_append (ws : List Char) (h : ∀ c ∈ ws, jsWhitespace c = true)
    (l : List Char) : trimChars (ws ++ l) = trimChars l := by
  simp only [trimChars, dropWhile_ws_append ws h]

theorem isSeparatorLine_ws_append (ws : List Char) (h : ∀ c ∈ ws, jsWhitespace c = true)
    (l : List Char) : isSeparatorLine (ws ++ l) = isSeparatorLine l := by
  simp only [isSeparatorLine, trimChars_ws_append ws h]

theorem contains_pipe_ws_append (ws : List Char) (h : ∀ c ∈ ws, c = ' ' ∨ c = '\t') :
    ∀ l : List Char, (ws ++ l).contains '|' = l.contains '|' := by
  induction ws with
  | nil => intro l; rfl
  | cons c cs ih =>
    intro l
    have hcs : ∀ c' ∈ cs, c' = ' ' ∨ c' = '\t' :=
      fun c' hm => h c' (List.mem_cons_of_mem c hm)
    have hne : ('|' == c) = false := by
      rcases h c (List.mem_cons_self c cs) with rfl | rfl <;> rfl
    simp only [List.cons_append, List.contains_cons, hne, Bool.false_or]
    exact ih hcs l

/-- C5: table detection is true exactly when some line contains `|` and some
line matches the separator-row regex; the two canonical examples behave as
claimed; and because the separator pattern opens with `^\s*`, prefixing every
line with the same leading whitespace never changes the detection result (the
dedent-insensitivity the claim requires). -/
theorem c5_table_detection :
    (∀ t : List Char, isTableOf t =
      ((splitLines t).any (fun l => l.contains '|') &&
       (splitLines t).any isSeparatorLine)) ∧
    isTableOf "|a|b|\n|---|---|".data = true ∧
    isTableOf "|a|b|\n|c|d|".data = false ∧
    (∀ (ws t : List Char), (∀ c ∈ ws, c = ' ' ∨ c = '\t') →
      isTableOf (joinLines ((splitLines t).map (fun l => ws ++ l))) = isTableOf t) := by
  refine ⟨isTableOf_eq, by decide, by decide, ?_⟩
  intro ws t hws
  have hwsJs : ∀ c ∈ ws, jsWhitespace c = true := by
    intro c hc
    rcases hws c hc with rfl | rfl <;> rfl
  have hnlws : '\n' ∉ ws := by
    intro hmem
    rcases hws '\n' hmem with h | h <;> exact absurd h (by decide)
  rw [isTableOf_eq, isTableOf_eq]
  have hlines : splitLines (joinLines ((splitLines t).map (fun l => ws ++ l))) =
      (splitLines t).map (fun l => ws ++ l) := by
    apply splitLines_joinLines
    · intro hmap
      exact splitLines_ne_nil t (List.map_eq_nil_iff.mp hmap)
    · intro l hl
      rw [List.mem_map] at hl
      obtain ⟨l0, hl0, rfl⟩ := hl
      intro hmem
      rcases List.mem_append.mp hmem with hm | hm
      · exact hnlws hm
      · exact mem_splitLines_no_newline t l0 hl0 hm
  rw [hlines]
  have h1 : ((splitLines t).map (fun l => ws ++ l)).any (fun l => l.contains '|') =
      (splitLines t).any (fun l => l.contains '|') := by
    induction splitLines t with
    | nil => rfl
    | cons x xs ih =>
      simp only [List.map_cons, List.any_cons, ih, contains_pipe_ws_append ws hws]
  have h2 : ((splitLines t).map (fun l => ws ++ l)).any isSeparatorLine =
      (splitLines t).any isSeparatorLine := by
    induction splitLines t with
    | nil => rfl
    | cons x xs ih =>
      simp only [List.map_cons, List.any_cons, ih, isSeparatorLine_ws_append ws hwsJs]
  rw [h1, h2]

/-- Witness for `c5_table_detection`: two-space indentation does not change
detection on the canonical table. -/
theorem c5_table_detection_witness :
    isTableOf (joinLines ((splitLines "|a|b|\n|---|---|".data).map
      (fun l => "  ".data ++ l))) = isTableOf "|a|b|\n|---|---|".data :=
  c5_table_detection.2.2.2 "  ".data "|a|b|\n|---|---|".data (by decide)

theorem pmGo_markers : ∀ (parts : List (List Char)) (c : Nat),
    (pmGo parts c).filterMap markerIdx =
      List.range' c ((parts.filter isBracketToken).length) := by
  intro parts
  induction parts with
  | nil => intro c; rfl
  | cons p ps ih =>
    intro c
    cases hb : isBracketToken p with
    | true =>
      simp only [pmGo, hb, if_true, List.filterMap_cons, markerIdx,
        List.filter_cons, List.length_cons, List.range'_succ]
      rw [ih (c + 1)]
    | false =>
      simp only [pmGo, hb, Bool.false_eq_true, if_false, List.filterMap_cons, markerIdx,
        List.filter_cons]
      rw [ih c]

theorem markerCount_eq (x : List Char) :
    markerCount (processedMarkdownParts x) =
      ((jsSplit x).filter isBracketToken).length := by
  rw [markerCount, processedMarkdownParts, pmGo_markers, List.length_range']

theorem parseText_length (x : List Char) :
    (parseText x).length = ((jsSplit x).filter isBracketToken).length := by
  rw [parseText, List.length_map]

/-- C10 amended: in the table path the markers carry indices `0..n-1` in
textual order, where `n` counts the bracket-shaped parts of the split of the
(dedented) raw text; a marker resolves to the `BlankData` at its index and
renders nothing when that index has none; and the marker count equals the
parser's `BlankData` count whenever dedenting leaves the text unchanged (the
counterexample shows the counts can differ when dedenting rewrites a literal
part into bracket shape). -/
theorem c10_table_markers_amended :
    (∀ raw : List Char,
      (processedMarkdownParts raw).filterMap markerIdx =
        List.range (((jsSplit raw).filter isBracketToken).length)) ∧
    (∀ (bd : List BlankData) (st : BlanksState) (k : Nat),
      (inlineMarkdownBlank bd st k).map Prod.fst = bd[k]?) ∧
    (∀ t : List Char, (computeRawTable t).1 = t →
      markerCount (processedMarkdownParts (computeRawTable t).1) =
        (parseText t).length) := by
  refine ⟨?_, ?_, ?_⟩
  · intro raw
    rw [processedMarkdownParts, pmGo_markers, List.range_eq_range']
  · intro bd st k
    cases h : bd[k]? with
    | none => simp [inlineMarkdownBlank, h]
    | some data => simp [inlineMarkdownBlank, h]
  · intro t h
    rw [h, markerCount_eq, parseText_length]

/-- Witness for `c10_table_markers_amended`: a table whose text needs no
dedenting has exactly as many markers as parsed blanks. -/
theorem c10_table_markers_amended_witness :
    markerCount (processedMarkdownParts
      (computeRawTable "|a|[x]|\n|---|---|".data).1) =
      (parseText "|a|[x]|\n|---|---|".data).length :=
  c10_table_markers_amended.2.2 "|a|[x]|\n|---|---|".data (by decide)

/-- C10 counterexample: with every line indented by two spaces and a literal
part `"  [a\n  b]"` that dedenting rewrites into the bracket-shaped
`"[a\nb]"`, the table path emits two placeholders while the parser (which
runs on the undedented text) extracts only one `BlankData` — the claimed
count equality fails. -/
theorem c10_table_markers_cex :
    (computeRawTable "  [a\n  b][ok]\n  |x|y|\n  |---|---|".data).2 = true ∧
    markerCount (processedMarkdownParts
      (computeRawTable "  [a\n  b][ok]\n  |x|y|\n  |---|---|".data).1) = 2 ∧
    (parseText "  [a\n  b][ok]\n  |x|y|\n  |---|---|".data).length = 1 := by
  decide

end Blanks
